import Mathlib

/-!
# APDU command / response codec

A shallow embedding of the Go package `apdu` (`apdu.go`, `response.go`):
the command encoder `APDU.Bytes`, the command decoder `FromBytes`, the
response decoder `NewResponse`, `ParseResponse` and the status word
classification `StatusWord.IsError`, then `Select`, the textual functions
`APDU.String` and `FromString` and the rendering `StatusWord.Error`, followed by
theorems about them.

Modelling conventions.
* A Go `byte` is a `Fin 256`; the conversion `byte(n)` of an `int` is
  `toByte n`, which keeps `n % 256`.
* A Go `[]byte` is a `List Byte`.  A nil slice and an empty slice are both
  the empty list: they are the same byte sequence.
* A Go function returning `(*T, error)` where exactly one of the two is non-nil
  on each return path is an `Except Error T`.
* `ParseResponse` can return data together with an error, so it returns a pair.
* A Go `string` is the list of its bytes.
-/

namespace Apdu

/-- Go `byte`. -/
abbrev Byte := Fin 256

/-- Go conversion `byte(n)` of an `int`: the low eight bits. -/
def toByte (n : Nat) : Byte := ⟨n % 256, Nat.mod_lt n (by decide)⟩

/-- Go slice expression `b[lo:hi]` (for `lo ≤ hi ≤ len(b)`). -/
def slice (b : List Byte) (lo hi : Nat) : List Byte := (b.drop lo).take (hi - lo)

/-- Go `type APDU struct` of `apdu.go`. -/
structure APDU where
  Cla : Byte
  Ins : Byte
  P1 : Byte
  P2 : Byte
  Data : List Byte
  Le : Byte
deriving DecidableEq, Repr

/-- Go `type StatusWord [2]byte` of `response.go`: the cells `sw[0]` and `sw[1]`. -/
structure StatusWord where
  sw0 : Byte
  sw1 : Byte
deriving DecidableEq, Repr

/-- Go `type Response struct` of `response.go`. -/
structure Response where
  Data : List Byte
  StatusWord : StatusWord
deriving DecidableEq, Repr

/-- Values of Go's `error` interface produced by the byte-level codec: the two
package variables `errInvalidDataLength`, `errInvalidLength`, and a `StatusWord`
used as an error value. -/
inductive Error where
  | errInvalidDataLength
  | errInvalidLength
  | statusWord (sw : StatusWord)
deriving DecidableEq, Repr

deriving instance DecidableEq for Except

/-- Method `func (a APDU) Bytes() []byte` of `apdu.go`. -/
def APDU.Bytes (a : APDU) : List Byte :=
  let command : List Byte := [a.Cla, a.Ins, a.P1, a.P2]
  let lc : Byte := toByte a.Data.length
  let command := if lc > 0 then command ++ [lc] else command
  let command := command ++ a.Data
  command ++ [a.Le]

/-- Function `func FromBytes(b []byte) (*APDU, error)` of `apdu.go`. -/
def FromBytes (b : List Byte) : Except Error APDU :=
  if h : b.length < 4 then
    .error .errInvalidLength
  else
    let apdu : APDU := { Cla := b[0], Ins := b[1], P1 := b[2], P2 := b[3], Data := [], Le := 0 }
    if h4 : b.length = 4 then
      .ok apdu
    else if h5 : b.length = 5 then
      .ok { apdu with Le := b[4] }
    else
      let lc : Nat := (b[4]).val
      if (b.length : Int) - 5 < (lc : Int) then
        .error .errInvalidDataLength
      else if b.length > 6 + lc then
        .error .errInvalidLength
      else
        let apdu : APDU := { apdu with Data := slice b 5 (5 + lc) }
        if h6 : b.length > 5 + lc then
          .ok { apdu with Le := b[5 + lc] }
        else
          .ok apdu

/-- Method `func (sw StatusWord) IsError() bool` of `response.go`. -/
def StatusWord.IsError (sw : StatusWord) : Bool :=
  !(sw.sw0 == 0x9f || (sw.sw0 == 0x90 && sw.sw1 == 0x00))

/-- Function `func NewResponse(b []byte) (*Response, error)` of `response.go`. -/
def NewResponse (b : List Byte) : Except Error Response :=
  if h : b.length < 2 then
    .error .errInvalidLength
  else
    let response : Response :=
      { Data := [], StatusWord := ⟨b[b.length - 2], b[b.length - 1]⟩ }
    if b.length > 2 then
      .ok { response with Data := slice b 0 (b.length - 2) }
    else
      .ok response

/-- Function `func ParseResponse(b []byte) (data []byte, err error)` of
`response.go`; `none` is the nil error. -/
def ParseResponse (b : List Byte) : List Byte × Option Error :=
  match NewResponse b with
  | .error err => ([], some err)
  | .ok r =>
    if r.StatusWord.sw0 ≠ 0x90 ∨ r.StatusWord.sw1 ≠ 0x00 then
      (r.Data, some (.statusWord r.StatusWord))
    else
      (r.Data, none)

/-- Function `func Select(aid []byte) APDU` of `apdu.go`; the field `Le` is not
set by the composite literal, so it has Go's zero value. -/
def Select (aid : List Byte) : APDU :=
  { Cla := 0x00, Ins := 0xa4, P1 := 0x04, P2 := 0x00, Data := aid, Le := 0 }

/-! ### Strings, `encoding/hex`, `strings.Replacer` and `fmt`

A Go `string` is a sequence of bytes: it is a `List Byte` here.  The functions of
the Go standard library that `apdu.go` and `response.go` call are transcribed
below. -/

/-- The byte of an ASCII character literal such as Go's `'0'`. -/
def ch (c : Char) : Byte := toByte c.toNat

/-- The bytes of a Go string literal made of ASCII characters. -/
def ascii (s : String) : List Byte := s.toList.map ch

/-- Go `encoding/hex`: `const hextable = "0123456789abcdef"`. -/
def hextable : List Byte := ascii "0123456789abcdef"

/-- Go `encoding/hex.Encode`, as called by `hex.EncodeToString`: for each byte
`v` of the source, `hextable[v>>4]` then `hextable[v&0x0f]`. -/
def hex.EncodeToString : List Byte → List Byte
  | [] => []
  | v :: rest =>
    have h1 : v.val >>> 4 < hextable.length := by
      have hv := v.isLt
      rw [show hextable.length = 16 from rfl, Nat.shiftRight_eq_div_pow]
      omega
    have h2 : v.val &&& 0x0f < hextable.length := by
      have hle : v.val &&& 0x0f ≤ 0x0f := Nat.and_le_right
      rw [show hextable.length = 16 from rfl]
      omega
    hextable[v.val >>> 4] :: hextable[v.val &&& 0x0f] :: hex.EncodeToString rest

/-- Go `encoding/hex.fromHexChar`: the value of a hexadecimal digit and `true`, or
`(0, false)`; the arithmetic is that of Go bytes (modulo 256). -/
def hex.fromHexChar (c : Byte) : Byte × Bool :=
  if ch '0' ≤ c ∧ c ≤ ch '9' then (c - ch '0', true)
  else if ch 'a' ≤ c ∧ c ≤ ch 'f' then (c - ch 'a' + 10, true)
  else if ch 'A' ≤ c ∧ c ≤ ch 'F' then (c - ch 'A' + 10, true)
  else (0, false)

/-- Errors of Go's `encoding/hex`: `hex.ErrLength` and `hex.InvalidByteError(b)`. -/
inductive HexError where
  | ErrLength
  | InvalidByteError (b : Byte)
deriving DecidableEq, Repr

/-- Go `encoding/hex.Decode`: the loop that reads the source two characters at a
time.  `dst` is what has been decoded so far (`dst[:i]` in Go) and the list
argument is the part of the source not yet read (`src[j-1:]`); the result is the
decoded prefix together with the error (`none` for nil).  An odd character left
at the end is checked for validity before the length error is reported. -/
def hex.Decode (dst : List Byte) : List Byte → List Byte × Option HexError
  | p :: q :: rest =>
    if (hex.fromHexChar p).2 = false then
      (dst, some (.InvalidByteError p))
    else if (hex.fromHexChar q).2 = false then
      (dst, some (.InvalidByteError q))
    else
      hex.Decode
        (dst ++ [toByte ((toByte ((hex.fromHexChar p).1.val <<< 4)).val |||
          (hex.fromHexChar q).1.val)])
        rest
  | [p] =>
    if (hex.fromHexChar p).2 = false then
      (dst, some (.InvalidByteError p))
    else
      (dst, some .ErrLength)
  | [] => (dst, none)

/-- Go `encoding/hex.DecodeString`. -/
def hex.DecodeString (s : List Byte) : List Byte × Option HexError :=
  hex.Decode [] s

/-- Go `var spaceReplacer = strings.NewReplacer(" ", "", "\t", "", "\n", "", "\r", "")`
of `apdu.go`: the list of (old byte, new string) pairs. -/
def spaceReplacer : List (Byte × List Byte) :=
  [(ch ' ', []), (ch '\t', []), (ch '\n', []), (ch '\r', [])]

/-- Go `(*strings.Replacer).Replace` for a replacer all of whose old strings are
single bytes: each byte that has a pair is replaced by its new string (the first
pair of a byte wins), every other byte is copied. -/
def Replace (r : List (Byte × List Byte)) : List Byte → List Byte
  | [] => []
  | c :: rest =>
    match r.lookup c with
    | some new => new ++ Replace r rest
    | none => c :: Replace r rest

/-- Method `func (a APDU) String() string` of `apdu.go`. -/
def APDU.String (a : APDU) : List Byte :=
  hex.EncodeToString a.Bytes

/-- Values of Go's `error` interface returned by `FromString`: an error of
`hex.DecodeString`, or an error of `FromBytes`. -/
inductive StringError where
  | hex (e : HexError)
  | apdu (e : Error)
deriving DecidableEq, Repr

/-- Function `func FromString(s string) (*APDU, error)` of `apdu.go`. -/
def FromString (s : List Byte) : Except StringError APDU :=
  match hex.DecodeString (Replace spaceReplacer s) with
  | (_, some err) => .error (.hex err)
  | (b, none) => (FromBytes b).mapError .apdu

/-- Go `fmt`: `const udigits = "0123456789ABCDEFX"`. -/
def udigits : List Byte := ascii "0123456789ABCDEFX"

/-- Go `fmt`, verb `%X` applied to an array of bytes (`fmtSbx` with `udigits`):
for each byte `c`, `udigits[c>>4]` then `udigits[c&0xF]`. -/
def fmtX : List Byte → List Byte
  | [] => []
  | c :: rest =>
    have h1 : c.val >>> 4 < udigits.length := by
      have hc := c.isLt
      rw [show udigits.length = 17 from rfl, Nat.shiftRight_eq_div_pow]
      omega
    have h2 : c.val &&& 0xF < udigits.length := by
      have hle : c.val &&& 0xF ≤ 0xF := Nat.and_le_right
      rw [show udigits.length = 17 from rfl]
      omega
    udigits[c.val >>> 4] :: udigits[c.val &&& 0xF] :: fmtX rest

/-- Method `func (sw StatusWord) Error() string` of `response.go`.  The package
variable `statusWords` (a `map[uint16]string`) is not part of the sources at hand:
it is the parameter `statusWords`, `none` meaning that the key is absent.  The key
`uint16(sw[0])<<8|uint16(sw[1])` is computed on 16 bits, and
`fmt.Sprintf("%X (%s)", [2]byte(sw), description)` is the two bytes in upper-case
hexadecimal, then ` (`, the description and `)`. -/
def StatusWord.Error (statusWords : Nat → Option (List Byte)) (sw : StatusWord) : List Byte :=
  let key : Nat := ((sw.sw0.val <<< 8) % 65536) ||| sw.sw1.val
  let description : List Byte :=
    match statusWords key with
    | some d => d
    | none => ascii "Unknown"
  fmtX [sw.sw0, sw.sw1] ++ ascii " (" ++ description ++ ascii ")"

/-! ### Vocabulary of the specification

The definitions below are not translated from the Go sources: they write down
the words the specification uses (whitespace, hexadecimal digit, the bytes a
hexadecimal string denotes), so that the code can be compared with them. -/

/-- Specification: the four whitespace characters space, tab, newline and
carriage return. -/
def isSpaceChar (c : Byte) : Bool :=
  c == ch ' ' || c == ch '\t' || c == ch '\n' || c == ch '\r'

/-- Specification: a string with every space, tab, newline and carriage return
removed. -/
def removeSpaces (s : List Byte) : List Byte :=
  s.filter (fun c => !isSpaceChar c)

/-- Specification: the lower-case hexadecimal digit (`0`-`9`, `a`-`f`) of a
value below 16. -/
def lowerHexDigit (n : Nat) : Byte :=
  if n < 10 then toByte ((ch '0').val + n) else toByte ((ch 'a').val + (n - 10))

/-- Specification: the upper-case hexadecimal digit (`0`-`9`, `A`-`F`) of a
value below 16. -/
def upperHexDigit (n : Nat) : Byte :=
  if n < 10 then toByte ((ch '0').val + n) else toByte ((ch 'A').val + (n - 10))

/-- Specification: the value of a hexadecimal digit, of either case; `none` for
any other character. -/
def hexDigitValue (c : Byte) : Option Nat :=
  (List.range 16).find? (fun n => c == lowerHexDigit n || c == upperHexDigit n)

/-- Specification: the character is a hexadecimal digit. -/
def isHexDigit (c : Byte) : Bool := (hexDigitValue c).isSome

/-- Specification: the bytes that a string of hexadecimal digits denotes, two
digits per byte, high nibble first. -/
def hexBytes : List Byte → List Byte
  | hi :: lo :: rest =>
    toByte (16 * (hexDigitValue hi).getD 0 + (hexDigitValue lo).getD 0) :: hexBytes rest
  | _ => []

/-! ## The repository's test vectors, evaluated on the embedding -/

theorem FromBytes_test_too_short : FromBytes [0x11, 0x22] = .error .errInvalidLength := by decide
theorem FromBytes_test_four : FromBytes [0x11, 0x22, 0x33, 0x44] = .ok ⟨0x11, 0x22, 0x33, 0x44, [], 0⟩ := by decide
theorem FromBytes_test_five : FromBytes [0x11, 0x22, 0x33, 0x44, 0x55] = .ok ⟨0x11, 0x22, 0x33, 0x44, [], 0x55⟩ := by
  decide
theorem FromBytes_test_data_without_Le : FromBytes [0x11, 0x22, 0x33, 0x44, 0x02, 0x77, 0x88] =
    .ok ⟨0x11, 0x22, 0x33, 0x44, [0x77, 0x88], 0⟩ := by decide
theorem FromBytes_test_data_with_Le : FromBytes [0x11, 0x22, 0x33, 0x44, 0x02, 0x77, 0x88, 0x99] =
    .ok ⟨0x11, 0x22, 0x33, 0x44, [0x77, 0x88], 0x99⟩ := by decide
theorem FromBytes_test_data_too_short : FromBytes [0x11, 0x22, 0x33, 0x44, 0x03, 0x77] = .error .errInvalidDataLength := by
  decide
theorem FromBytes_test_data_too_long : FromBytes [0x11, 0x22, 0x33, 0x44, 0x02, 0x77, 0x88, 0x99, 0xFF] =
    .error .errInvalidLength := by decide
theorem Bytes_test : APDU.Bytes ⟨0x11, 0x22, 0x33, 0x44, [0x88, 0x99], 0x77⟩ =
    [0x11, 0x22, 0x33, 0x44, 0x02, 0x88, 0x99, 0x77] := by decide
theorem NewResponse_test_with_data : NewResponse [0x11, 0x22, 0x90, 0x00] = .ok ⟨[0x11, 0x22], ⟨0x90, 0x00⟩⟩ := by decide
theorem ParseResponse_test_status_9f00 : ParseResponse [0x11, 0x22, 0x33, 0x9f, 0x00] =
    ([0x11, 0x22, 0x33], some (.statusWord ⟨0x9f, 0x00⟩)) := by decide

/-! ## Evaluation lemmas for `FromBytes` and `APDU.Bytes` -/

theorem toByte_val_of_le (n : Nat) (h : n ≤ 255) : (toByte n).val = n := by
  simp only [toByte]
  omega

theorem FromBytes_of_length_lt (b : List Byte) (h : b.length < 4) :
    FromBytes b = .error .errInvalidLength := by
  simp [FromBytes, h]

theorem FromBytes_four (a b c d : Byte) :
    FromBytes [a, b, c, d] = .ok ⟨a, b, c, d, [], 0⟩ := by
  simp [FromBytes]

theorem FromBytes_five (a b c d e : Byte) :
    FromBytes [a, b, c, d, e] = .ok ⟨a, b, c, d, [], e⟩ := by
  simp [FromBytes]

/-- The three outcomes of `FromBytes` on a frame of six bytes or more. -/
theorem FromBytes_six (a b c d l x : Byte) (rest : List Byte) :
    FromBytes (a :: b :: c :: d :: l :: x :: rest) =
      if rest.length + 1 < l.val then .error .errInvalidDataLength
      else if l.val < rest.length then .error .errInvalidLength
      else .ok ⟨a, b, c, d, (x :: rest).take l.val, ((x :: rest)[l.val]?).getD 0⟩ := by
  unfold FromBytes
  simp only [List.length_cons]
  rw [dif_neg (by omega), dif_neg (by omega), dif_neg (by omega)]
  simp only [List.getElem_cons_zero, List.getElem_cons_succ]
  by_cases h1 : rest.length + 1 < l.val
  · rw [if_pos (by omega), if_pos h1]
  · rw [if_neg (by omega), if_neg h1]
    by_cases h2 : l.val < rest.length
    · rw [if_pos (by omega), if_pos h2]
    · rw [if_neg (by omega), if_neg h2]
      by_cases h3 : rest.length + 1 = l.val
      · rw [dif_neg (by omega)]
        have hnone : (x :: rest)[l.val]? = none := by
          apply List.getElem?_eq_none
          simp only [List.length_cons]
          omega
        simp [slice, hnone]
      · have hlt : l.val < (x :: rest).length := by
          simp only [List.length_cons]
          omega
        rw [dif_pos (by omega)]
        have e : 5 + l.val = l.val + 1 + 1 + 1 + 1 + 1 := by omega
        have e5 : l.val + 1 + 1 + 1 + 1 + 1 - 5 = l.val := by omega
        simp only [slice, List.drop_succ_cons, List.drop_zero,
          List.getElem?_eq_getElem hlt, Option.getD_some, e, List.getElem_cons_succ, e5]

theorem exists_cons_six (b : List Byte) (h : 6 ≤ b.length) :
    ∃ a0 a1 a2 a3 l x rest, b = a0 :: a1 :: a2 :: a3 :: l :: x :: rest := by
  match b, h with
  | a0 :: a1 :: a2 :: a3 :: l :: x :: rest, _ => exact ⟨a0, a1, a2, a3, l, x, rest, rfl⟩

theorem exists_list_four (b : List Byte) (h : b.length = 4) :
    ∃ a0 a1 a2 a3, b = [a0, a1, a2, a3] := by
  match b, h with
  | [a0, a1, a2, a3], _ => exact ⟨a0, a1, a2, a3, rfl⟩

theorem exists_list_five (b : List Byte) (h : b.length = 5) :
    ∃ a0 a1 a2 a3 a4, b = [a0, a1, a2, a3, a4] := by
  match b, h with
  | [a0, a1, a2, a3, a4], _ => exact ⟨a0, a1, a2, a3, a4, rfl⟩

theorem Bytes_nil (cla ins p1 p2 le : Byte) :
    APDU.Bytes ⟨cla, ins, p1, p2, [], le⟩ = [cla, ins, p1, p2, le] := by
  simp [APDU.Bytes, toByte]

theorem Bytes_cons (cla ins p1 p2 le x : Byte) (rest : List Byte) (h : rest.length + 1 ≤ 255) :
    APDU.Bytes ⟨cla, ins, p1, p2, x :: rest, le⟩ =
      cla :: ins :: p1 :: p2 :: toByte (rest.length + 1) :: x :: (rest ++ [le]) := by
  have hpos : toByte (rest.length + 1) > 0 := by
    rw [gt_iff_lt, Fin.lt_def, toByte_val_of_le _ h]
    simp
  simp [APDU.Bytes, hpos]

/-! ## Command codec -/

/-- C1: round trip.  For every command whose payload has at most 255 bytes (the
empty payload with `Le = 0` included), decoding the encoded command succeeds and
gives the command back, field by field. -/
theorem FromBytes_Bytes_roundtrip (c : APDU) (h : c.Data.length ≤ 255) :
    FromBytes c.Bytes = .ok c := by
  obtain ⟨cla, ins, p1, p2, data, le⟩ := c
  cases data with
  | nil => rw [Bytes_nil, FromBytes_five]
  | cons x rest =>
    simp only [List.length_cons] at h
    rw [Bytes_cons _ _ _ _ _ _ _ h, FromBytes_six, toByte_val_of_le _ h]
    simp only [List.length_append, List.length_singleton]
    rw [if_neg (by omega), if_neg (by omega)]
    have hd : List.take (rest.length + 1) (x :: (rest ++ [le])) = x :: rest := by
      simp
    have hl : (x :: (rest ++ [le]))[rest.length + 1]? = some le := by
      simp
    rw [hd, hl]
    rfl

theorem FromBytes_Bytes_roundtrip_witness :
    ((⟨0x11, 0x22, 0x33, 0x44, [0x88, 0x99], 0x77⟩ : APDU).Data.length ≤ 255 ∧
      FromBytes (APDU.Bytes ⟨0x11, 0x22, 0x33, 0x44, [0x88, 0x99], 0x77⟩) =
        .ok ⟨0x11, 0x22, 0x33, 0x44, [0x88, 0x99], 0x77⟩) ∧
    ((⟨0x11, 0x22, 0x33, 0x44, [], 0⟩ : APDU).Data.length ≤ 255 ∧
      FromBytes (APDU.Bytes ⟨0x11, 0x22, 0x33, 0x44, [], 0⟩) =
        .ok ⟨0x11, 0x22, 0x33, 0x44, [], 0⟩) :=
  ⟨⟨by decide, FromBytes_Bytes_roundtrip _ (by decide)⟩,
   ⟨by decide, FromBytes_Bytes_roundtrip _ (by decide)⟩⟩

/-- C2: encode layout.  For every command whose payload has at most 255 bytes,
`Bytes` is the four header bytes, then (only when the payload is non-empty) one
byte whose value is the payload length followed by the payload, then the `Le`
byte, which is the last byte; the output has 5 bytes when the payload is empty
and `6 + len(payload)` bytes otherwise. -/
theorem Bytes_layout (c : APDU) (h : c.Data.length ≤ 255) :
    ∃ lc : Byte, lc.val = c.Data.length ∧
      c.Bytes = [c.Cla, c.Ins, c.P1, c.P2] ++ (if c.Data = [] then [] else lc :: c.Data)
        ++ [c.Le] ∧
      c.Bytes.getLast? = some c.Le ∧
      c.Bytes.length = (if c.Data = [] then 5 else 6 + c.Data.length) := by
  obtain ⟨cla, ins, p1, p2, data, le⟩ := c
  refine ⟨toByte data.length, toByte_val_of_le _ h, ?_⟩
  cases data with
  | nil =>
    rw [Bytes_nil]
    simp
  | cons x rest =>
    simp only [List.length_cons] at h
    rw [Bytes_cons _ _ _ _ _ _ _ h]
    refine ⟨by simp, ?_, ?_⟩
    · have e : cla :: ins :: p1 :: p2 :: toByte (rest.length + 1) :: x :: (rest ++ [le]) =
          (cla :: ins :: p1 :: p2 :: toByte (rest.length + 1) :: x :: rest) ++ [le] := by
        simp
      rw [e, List.getLast?_append]
      simp
    · simp
      omega

theorem Bytes_layout_witness :
    (⟨0x11, 0x22, 0x33, 0x44, [0x88, 0x99], 0x77⟩ : APDU).Data.length ≤ 255 ∧
    ∃ lc : Byte, lc.val = (⟨0x11, 0x22, 0x33, 0x44, [0x88, 0x99], 0x77⟩ : APDU).Data.length ∧
      APDU.Bytes ⟨0x11, 0x22, 0x33, 0x44, [0x88, 0x99], 0x77⟩ =
        [0x11, 0x22, 0x33, 0x44] ++
          (if (⟨0x11, 0x22, 0x33, 0x44, [0x88, 0x99], 0x77⟩ : APDU).Data = [] then []
            else lc :: (⟨0x11, 0x22, 0x33, 0x44, [0x88, 0x99], 0x77⟩ : APDU).Data)
          ++ [0x77] ∧
      (APDU.Bytes ⟨0x11, 0x22, 0x33, 0x44, [0x88, 0x99], 0x77⟩).getLast? = some 0x77 ∧
      (APDU.Bytes ⟨0x11, 0x22, 0x33, 0x44, [0x88, 0x99], 0x77⟩).length =
        (if (⟨0x11, 0x22, 0x33, 0x44, [0x88, 0x99], 0x77⟩ : APDU).Data = [] then 5
          else 6 + (⟨0x11, 0x22, 0x33, 0x44, [0x88, 0x99], 0x77⟩ : APDU).Data.length) :=
  ⟨by decide, Bytes_layout ⟨0x11, 0x22, 0x33, 0x44, [0x88, 0x99], 0x77⟩ (by decide)⟩

/-- C3: decode of a frame with data.  For every `b` of at least 6 bytes whose
fifth byte `lc = b[4]` satisfies `5 + lc ≤ len(b) ≤ 6 + lc`, `FromBytes b` succeeds;
the header is `b[0..3]`, the payload is the `lc` bytes `b[5 .. 5+lc)`, and `Le` is
`b[5+lc]` when `len(b) = 6 + lc` and `0` when `len(b) = 5 + lc`. -/
theorem FromBytes_with_data (b : List Byte) (lc : Byte) (h6 : 6 ≤ b.length)
    (hlc : b[4]? = some lc) (hlo : 5 + lc.val ≤ b.length) (hhi : b.length ≤ 6 + lc.val) :
    ∃ c, FromBytes b = .ok c ∧
      b[0]? = some c.Cla ∧ b[1]? = some c.Ins ∧ b[2]? = some c.P1 ∧ b[3]? = some c.P2 ∧
      c.Data = slice b 5 (5 + lc.val) ∧ c.Data.length = lc.val ∧
      (∀ i, i < lc.val → c.Data[i]? = b[5 + i]?) ∧
      (b.length = 6 + lc.val → b[5 + lc.val]? = some c.Le) ∧
      (b.length = 5 + lc.val → c.Le = 0) := by
  obtain ⟨a0, a1, a2, a3, l, x, rest, rfl⟩ := exists_cons_six b h6
  simp only [List.getElem?_cons_succ, List.getElem?_cons_zero, Option.some.injEq] at hlc
  subst hlc
  simp only [List.length_cons] at hlo hhi
  have hidx : ∀ i, (a0 :: a1 :: a2 :: a3 :: l :: x :: rest)[5 + i]? = (x :: rest)[i]? := by
    intro i
    rw [show 5 + i = i + 1 + 1 + 1 + 1 + 1 by omega]
    simp only [List.getElem?_cons_succ]
  refine ⟨⟨a0, a1, a2, a3, (x :: rest).take l.val, ((x :: rest)[l.val]?).getD 0⟩, ?_, ?_⟩
  · rw [FromBytes_six, if_neg (by omega), if_neg (by omega)]
  · refine ⟨rfl, rfl, rfl, rfl, ?_, ?_, ?_, ?_, ?_⟩
    · simp [slice]
    · simp only [List.length_take, List.length_cons]
      omega
    · intro i hi
      rw [hidx, List.getElem?_take_of_lt hi]
    · intro hlen
      simp only [List.length_cons] at hlen
      have hlt : l.val < (x :: rest).length := by
        simp only [List.length_cons]
        omega
      rw [hidx, List.getElem?_eq_getElem hlt]
      simp
    · intro hlen
      simp only [List.length_cons] at hlen
      have hnone : (x :: rest)[l.val]? = none := by
        apply List.getElem?_eq_none
        simp only [List.length_cons]
        omega
      simp [hnone]

theorem FromBytes_with_data_witness :
    (6 ≤ ([0x11, 0x22, 0x33, 0x44, 0x02, 0x77, 0x88, 0x99] : List Byte).length ∧
      ([0x11, 0x22, 0x33, 0x44, 0x02, 0x77, 0x88, 0x99] : List Byte)[4]? = some 0x02 ∧
      5 + (0x02 : Byte).val ≤ ([0x11, 0x22, 0x33, 0x44, 0x02, 0x77, 0x88, 0x99] : List Byte).length ∧
      ([0x11, 0x22, 0x33, 0x44, 0x02, 0x77, 0x88, 0x99] : List Byte).length
        ≤ 6 + (0x02 : Byte).val) ∧
    ∃ c, FromBytes [0x11, 0x22, 0x33, 0x44, 0x02, 0x77, 0x88, 0x99] = .ok c ∧
      c.Cla = 0x11 ∧ c.Ins = 0x22 ∧ c.P1 = 0x33 ∧ c.P2 = 0x44 ∧
      c.Data = [0x77, 0x88] ∧ c.Le = 0x99 := by
  refine ⟨by decide, ?_⟩
  obtain ⟨c, hc, h0, h1, h2, h3, hd, _, _, hle, _⟩ :=
    FromBytes_with_data [0x11, 0x22, 0x33, 0x44, 0x02, 0x77, 0x88, 0x99] 0x02
      (by decide) (by decide) (by decide) (by decide)
  refine ⟨c, hc, ?_, ?_, ?_, ?_, ?_, ?_⟩
  · simpa using h0.symm
  · simpa using h1.symm
  · simpa using h2.symm
  · simpa using h3.symm
  · rw [hd]
    decide
  · simpa using (hle (by decide)).symm

/-- C4: decode of header-only frames.  Every `b` of exactly 4 bytes decodes to the
header `b[0..3]` with empty payload and `Le = 0`; every `b` of exactly 5 bytes
decodes to the header `b[0..3]` with empty payload and `Le = b[4]`. -/
theorem FromBytes_header_only (b : List Byte) :
    (b.length = 4 → ∃ c, FromBytes b = .ok c ∧
      b[0]? = some c.Cla ∧ b[1]? = some c.Ins ∧ b[2]? = some c.P1 ∧ b[3]? = some c.P2 ∧
      c.Data = [] ∧ c.Le = 0) ∧
    (b.length = 5 → ∃ c, FromBytes b = .ok c ∧
      b[0]? = some c.Cla ∧ b[1]? = some c.Ins ∧ b[2]? = some c.P1 ∧ b[3]? = some c.P2 ∧
      c.Data = [] ∧ b[4]? = some c.Le) := by
  constructor
  · intro h
    obtain ⟨a0, a1, a2, a3, rfl⟩ := exists_list_four b h
    exact ⟨_, FromBytes_four a0 a1 a2 a3, rfl, rfl, rfl, rfl, rfl, rfl⟩
  · intro h
    obtain ⟨a0, a1, a2, a3, a4, rfl⟩ := exists_list_five b h
    exact ⟨_, FromBytes_five a0 a1 a2 a3 a4, rfl, rfl, rfl, rfl, rfl, rfl⟩

theorem FromBytes_header_only_witness :
    (([0x11, 0x22, 0x33, 0x44] : List Byte).length = 4 ∧
      ∃ c, FromBytes [0x11, 0x22, 0x33, 0x44] = .ok c ∧
        ([0x11, 0x22, 0x33, 0x44] : List Byte)[0]? = some c.Cla ∧
        ([0x11, 0x22, 0x33, 0x44] : List Byte)[1]? = some c.Ins ∧
        ([0x11, 0x22, 0x33, 0x44] : List Byte)[2]? = some c.P1 ∧
        ([0x11, 0x22, 0x33, 0x44] : List Byte)[3]? = some c.P2 ∧
        c.Data = [] ∧ c.Le = 0) ∧
    (([0x11, 0x22, 0x33, 0x44, 0x55] : List Byte).length = 5 ∧
      ∃ c, FromBytes [0x11, 0x22, 0x33, 0x44, 0x55] = .ok c ∧
        ([0x11, 0x22, 0x33, 0x44, 0x55] : List Byte)[0]? = some c.Cla ∧
        ([0x11, 0x22, 0x33, 0x44, 0x55] : List Byte)[1]? = some c.Ins ∧
        ([0x11, 0x22, 0x33, 0x44, 0x55] : List Byte)[2]? = some c.P1 ∧
        ([0x11, 0x22, 0x33, 0x44, 0x55] : List Byte)[3]? = some c.P2 ∧
        c.Data = [] ∧ ([0x11, 0x22, 0x33, 0x44, 0x55] : List Byte)[4]? = some c.Le) :=
  ⟨⟨by decide, (FromBytes_header_only [0x11, 0x22, 0x33, 0x44]).1 (by decide)⟩,
   ⟨by decide, (FromBytes_header_only [0x11, 0x22, 0x33, 0x44, 0x55]).2 (by decide)⟩⟩

/-- C5: `FromBytes b` fails with `errInvalidLength` exactly when `b` has fewer
than 4 bytes, or has at least 6 bytes and more than `5 + b[4] + 1` of them (so every
input shorter than 4 bytes fails this way, whatever its content). -/
theorem FromBytes_errInvalidLength_iff (b : List Byte) :
    FromBytes b = .error .errInvalidLength ↔
      (b.length < 4 ∨
        (6 ≤ b.length ∧ ∃ lc : Byte, b[4]? = some lc ∧ 5 + lc.val + 1 < b.length)) := by
  by_cases h4 : b.length < 4
  · simp [FromBytes_of_length_lt b h4, h4]
  · by_cases e4 : b.length = 4
    · obtain ⟨a0, a1, a2, a3, rfl⟩ := exists_list_four b e4
      rw [FromBytes_four]
      simp
    · by_cases e5 : b.length = 5
      · obtain ⟨a0, a1, a2, a3, a4, rfl⟩ := exists_list_five b e5
        rw [FromBytes_five]
        simp
      · obtain ⟨a0, a1, a2, a3, l, x, rest, rfl⟩ := exists_cons_six b (by omega)
        rw [FromBytes_six]
        simp only [List.length_cons, List.getElem?_cons_succ, List.getElem?_cons_zero,
          Option.some.injEq, exists_eq_left']
        by_cases h1 : rest.length + 1 < l.val
        · rw [if_pos h1]
          simp only [reduceCtorEq, Except.error.injEq, false_iff]
          omega
        · rw [if_neg h1]
          by_cases h2 : l.val < rest.length
          · rw [if_pos h2]
            simp only [true_iff]
            omega
          · rw [if_neg h2]
            simp only [reduceCtorEq, false_iff]
            omega

/-- C6: `FromBytes b` fails with `errInvalidDataLength` exactly when `b` has at
least 6 bytes and the number of bytes after the first five is smaller than the
declared length `b[4]`; the condition of this error and the condition of
`errInvalidLength` never hold of the same input. -/
theorem FromBytes_errInvalidDataLength_iff (b : List Byte) :
    (FromBytes b = .error .errInvalidDataLength ↔
      (6 ≤ b.length ∧ ∃ lc : Byte, b[4]? = some lc ∧ b.length - 5 < lc.val)) ∧
    ¬ ((6 ≤ b.length ∧ ∃ lc : Byte, b[4]? = some lc ∧ b.length - 5 < lc.val) ∧
        (b.length < 4 ∨
          (6 ≤ b.length ∧ ∃ lc : Byte, b[4]? = some lc ∧ 5 + lc.val + 1 < b.length))) ∧
    ¬ (FromBytes b = .error .errInvalidDataLength ∧ FromBytes b = .error .errInvalidLength) := by
  refine ⟨?_, ?_, ?_⟩
  · by_cases h4 : b.length < 4
    · rw [FromBytes_of_length_lt b h4]
      simp only [reduceCtorEq, Except.error.injEq, false_iff]
      omega
    · by_cases e4 : b.length = 4
      · obtain ⟨a0, a1, a2, a3, rfl⟩ := exists_list_four b e4
        rw [FromBytes_four]
        simp
      · by_cases e5 : b.length = 5
        · obtain ⟨a0, a1, a2, a3, a4, rfl⟩ := exists_list_five b e5
          rw [FromBytes_five]
          simp
        · obtain ⟨a0, a1, a2, a3, l, x, rest, rfl⟩ := exists_cons_six b (by omega)
          rw [FromBytes_six]
          simp only [List.length_cons, List.getElem?_cons_succ, List.getElem?_cons_zero,
            Option.some.injEq, exists_eq_left']
          by_cases h1 : rest.length + 1 < l.val
          · rw [if_pos h1]
            simp only [true_iff]
            omega
          · rw [if_neg h1]
            by_cases h2 : l.val < rest.length
            · rw [if_pos h2]
              simp only [reduceCtorEq, Except.error.injEq, false_iff]
              omega
            · rw [if_neg h2]
              simp only [reduceCtorEq, false_iff]
              omega
  · rintro ⟨⟨h6, lc, hlc, hlt⟩, hshort | ⟨_, lc2, hlc2, hgt⟩⟩
    · omega
    · rw [hlc] at hlc2
      simp only [Option.some.injEq] at hlc2
      subst hlc2
      omega
  · rintro ⟨h1, h2⟩
    rw [h1] at h2
    simp at h2

/-! ## Response codec -/

theorem NewResponse_of_length_lt (b : List Byte) (h : b.length < 2) :
    NewResponse b = .error .errInvalidLength := by
  simp [NewResponse, h]

theorem getElem_of_getElem?_eq_some (l : List Byte) (i : Nat) (a : Byte)
    (h : l[i]? = some a) (hi : i < l.length) : l[i] = a :=
  List.getElem_eq_iff.2 h

/-- Evaluation of `NewResponse` on a frame given as data followed by two bytes. -/
theorem NewResponse_append (data : List Byte) (s0 s1 : Byte) :
    NewResponse (data ++ [s0, s1]) = .ok ⟨data, ⟨s0, s1⟩⟩ := by
  unfold NewResponse
  have hlen : (data ++ [s0, s1]).length = data.length + 2 := by simp
  rw [dif_neg (by omega)]
  have i0 : (data ++ [s0, s1])[(data ++ [s0, s1]).length - 2]? = some s0 := by
    rw [hlen, List.getElem?_append_right (by omega)]
    simp
  have i1 : (data ++ [s0, s1])[(data ++ [s0, s1]).length - 1]? = some s1 := by
    rw [hlen, List.getElem?_append_right (by omega)]
    simp
  simp only [getElem_of_getElem?_eq_some _ _ _ i0, getElem_of_getElem?_eq_some _ _ _ i1]
  by_cases hd : data = []
  · subst hd
    simp
  · have hpos : 0 < data.length := List.length_pos.mpr hd
    rw [if_pos (by omega)]
    simp [slice]

theorem exists_append_two (b : List Byte) (h : 2 ≤ b.length) :
    ∃ data s0 s1, b = data ++ [s0, s1] := by
  have hd : (b.drop (b.length - 2)).length = 2 := by
    rw [List.length_drop]
    omega
  match hb : b.drop (b.length - 2), hd with
  | [s0, s1], _ =>
    refine ⟨b.take (b.length - 2), s0, s1, ?_⟩
    rw [← hb, List.take_append_drop]

theorem ParseResponse_append (data : List Byte) (s0 s1 : Byte) :
    ParseResponse (data ++ [s0, s1]) =
      if s0 ≠ 0x90 ∨ s1 ≠ 0x00 then (data, some (.statusWord ⟨s0, s1⟩)) else (data, none) := by
  simp only [ParseResponse, NewResponse_append]

theorem getElem?_append_two (data : List Byte) (s0 s1 : Byte) :
    (data ++ [s0, s1])[(data ++ [s0, s1]).length - 2]? = some s0 ∧
    (data ++ [s0, s1])[(data ++ [s0, s1]).length - 1]? = some s1 := by
  have hlen : (data ++ [s0, s1]).length = data.length + 2 := by simp
  constructor
  · rw [hlen, List.getElem?_append_right (by omega)]
    simp
  · rw [hlen, List.getElem?_append_right (by omega)]
    simp

theorem IsError_mk_eq_false (s0 s1 : Byte) :
    StatusWord.IsError ⟨s0, s1⟩ = false ↔ (s0 = 0x9f ∨ (s0 = 0x90 ∧ s1 = 0x00)) := by
  simp only [StatusWord.IsError, Bool.not_eq_eq_eq_not, Bool.not_false, Bool.or_eq_true,
    Bool.and_eq_true, beq_iff_eq]

/-- C7: response decode.  `NewResponse b` fails with `errInvalidLength` exactly
when `b` has fewer than 2 bytes; otherwise it returns a response whose status
word is the last two bytes of `b`, in order, and whose data is all the bytes
before them (none when `b` has exactly 2 bytes): data followed by the two status
bytes is `b`. -/
theorem NewResponse_spec (b : List Byte) :
    (NewResponse b = .error .errInvalidLength ↔ b.length < 2) ∧
    (¬ b.length < 2 → ∃ r, NewResponse b = .ok r ∧
      b[b.length - 2]? = some r.StatusWord.sw0 ∧
      b[b.length - 1]? = some r.StatusWord.sw1 ∧
      r.Data = b.take (b.length - 2) ∧
      (b.length = 2 → r.Data = []) ∧
      r.Data ++ [r.StatusWord.sw0, r.StatusWord.sw1] = b) := by
  by_cases h : b.length < 2
  · exact ⟨⟨fun _ => h, fun _ => NewResponse_of_length_lt b h⟩, fun hn => absurd h hn⟩
  · obtain ⟨data, s0, s1, rfl⟩ := exists_append_two b (by omega)
    refine ⟨?_, fun _ => ⟨⟨data, ⟨s0, s1⟩⟩, NewResponse_append data s0 s1, ?_⟩⟩
    · rw [NewResponse_append]
      simp only [reduceCtorEq, false_iff]
      exact h
    · refine ⟨(getElem?_append_two data s0 s1).1, (getElem?_append_two data s0 s1).2, ?_, ?_, rfl⟩
      · simp
      · intro hl
        simp only [List.length_append, List.length_cons, List.length_nil] at hl
        show data = []
        exact List.length_eq_zero.mp (by omega)

theorem NewResponse_spec_witness :
    ¬ ([0x11, 0x22, 0x90, 0x00] : List Byte).length < 2 ∧
    ∃ r, NewResponse [0x11, 0x22, 0x90, 0x00] = .ok r ∧
      r.Data ++ [r.StatusWord.sw0, r.StatusWord.sw1] = [0x11, 0x22, 0x90, 0x00] := by
  refine ⟨by decide, ?_⟩
  obtain ⟨r, hr, _, _, _, _, happ⟩ := (NewResponse_spec [0x11, 0x22, 0x90, 0x00]).2 (by decide)
  exact ⟨r, hr, happ⟩

/-- C8: response parse.  When `b` has fewer than 2 bytes `ParseResponse b` returns
no data and the error `errInvalidLength`.  When `b` has at least 2 bytes the data
returned is `b` without its last two bytes `s0, s1`; the error is nil exactly when
`s0 = 0x90` and `s1 = 0x00`, and otherwise it is the status word `(s0, s1)`. -/
theorem ParseResponse_spec (b : List Byte) :
    (b.length < 2 → ParseResponse b = ([], some .errInvalidLength)) ∧
    (2 ≤ b.length → ∃ s0 s1 : Byte,
      b = (ParseResponse b).1 ++ [s0, s1] ∧
      (ParseResponse b).1 = b.take (b.length - 2) ∧
      ((ParseResponse b).2 = none ↔ (s0 = 0x90 ∧ s1 = 0x00)) ∧
      (¬ (s0 = 0x90 ∧ s1 = 0x00) → (ParseResponse b).2 = some (.statusWord ⟨s0, s1⟩))) := by
  constructor
  · intro h
    simp only [ParseResponse, NewResponse_of_length_lt b h]
  · intro h
    obtain ⟨data, s0, s1, rfl⟩ := exists_append_two b h
    refine ⟨s0, s1, ?_⟩
    rw [ParseResponse_append]
    by_cases hs : s0 = 0x90 ∧ s1 = 0x00
    · rw [if_neg (by rw [not_or, not_not, not_not]; exact hs)]
      simp [hs]
    · rw [if_pos (by rw [← not_and_or]; exact hs)]
      simp [hs]

theorem ParseResponse_spec_witness :
    (([0x90] : List Byte).length < 2 ∧ ParseResponse [0x90] = ([], some .errInvalidLength)) ∧
    (2 ≤ ([0x11, 0x22, 0x33, 0x9f, 0x00] : List Byte).length ∧
      ∃ s0 s1 : Byte,
        ([0x11, 0x22, 0x33, 0x9f, 0x00] : List Byte) =
          (ParseResponse [0x11, 0x22, 0x33, 0x9f, 0x00]).1 ++ [s0, s1] ∧
        (ParseResponse [0x11, 0x22, 0x33, 0x9f, 0x00]).1 =
          ([0x11, 0x22, 0x33, 0x9f, 0x00] : List Byte).take
            (([0x11, 0x22, 0x33, 0x9f, 0x00] : List Byte).length - 2) ∧
        ((ParseResponse [0x11, 0x22, 0x33, 0x9f, 0x00]).2 = none ↔ (s0 = 0x90 ∧ s1 = 0x00)) ∧
        (¬ (s0 = 0x90 ∧ s1 = 0x00) →
          (ParseResponse [0x11, 0x22, 0x33, 0x9f, 0x00]).2 = some (.statusWord ⟨s0, s1⟩))) :=
  ⟨⟨by decide, (ParseResponse_spec [0x90]).1 (by decide)⟩,
   ⟨by decide, (ParseResponse_spec [0x11, 0x22, 0x33, 0x9f, 0x00]).2 (by decide)⟩⟩

/-- C9: status classification.  `IsError` is false exactly when the high byte is
`0x9F`, or the high byte is `0x90` and the low byte is `0x00`; for every other
status word it is true, for instance for `0x9001`. -/
theorem IsError_eq_false_iff (sw : StatusWord) :
    (sw.IsError = false ↔ (sw.sw0 = 0x9f ∨ (sw.sw0 = 0x90 ∧ sw.sw1 = 0x00))) ∧
    (sw.IsError = true ↔ ¬ (sw.sw0 = 0x9f ∨ (sw.sw0 = 0x90 ∧ sw.sw1 = 0x00))) ∧
    StatusWord.IsError ⟨0x90, 0x01⟩ = true := by
  obtain ⟨s0, s1⟩ := sw
  refine ⟨IsError_mk_eq_false s0 s1, ?_, by decide⟩
  rw [← IsError_mk_eq_false s0 s1]
  simp

/-- C10: asymmetry between `ParseResponse` and `IsError`.  For every `b` of at
least 2 bytes whose last two bytes are the status word `sw`: if `ParseResponse b`
returns a nil error then `sw.IsError` is false; `ParseResponse b` returns `sw` as
error while `sw.IsError` is false exactly when the high byte of `sw` is `0x9F`;
and the only error `ParseResponse b` can return is `sw`. -/
theorem ParseResponse_IsError_asymmetry (b : List Byte) (sw : StatusWord)
    (h2 : 2 ≤ b.length) (h0 : b[b.length - 2]? = some sw.sw0)
    (h1 : b[b.length - 1]? = some sw.sw1) :
    ((ParseResponse b).2 = none → sw.IsError = false) ∧
    (((ParseResponse b).2 = some (.statusWord sw) ∧ sw.IsError = false) ↔ sw.sw0 = 0x9f) ∧
    (∀ e, (ParseResponse b).2 = some e → e = .statusWord sw) := by
  obtain ⟨data, s0, s1, rfl⟩ := exists_append_two b h2
  obtain ⟨t0, t1⟩ := sw
  rw [(getElem?_append_two data s0 s1).1] at h0
  rw [(getElem?_append_two data s0 s1).2] at h1
  simp only [Option.some.injEq] at h0 h1
  subst h0 h1
  rw [ParseResponse_append]
  by_cases hs : s0 = 0x90 ∧ s1 = 0x00
  · rw [if_neg (by rw [not_or, not_not, not_not]; exact hs)]
    obtain ⟨rfl, rfl⟩ := hs
    refine ⟨fun _ => (IsError_mk_eq_false _ _).2 (Or.inr ⟨rfl, rfl⟩), ?_, by simp⟩
    simp only [reduceCtorEq, false_and, false_iff]
    decide
  · rw [if_pos (by rw [← not_and_or]; exact hs)]
    refine ⟨by simp, ?_, by simp⟩
    rw [IsError_mk_eq_false]
    simp only [true_and]
    constructor
    · rintro (h | h)
      · exact h
      · exact absurd h hs
    · intro h
      exact Or.inl h

theorem ParseResponse_IsError_asymmetry_witness :
    (2 ≤ ([0x11, 0x22, 0x33, 0x9f, 0x00] : List Byte).length ∧
      ([0x11, 0x22, 0x33, 0x9f, 0x00] : List Byte)[
        ([0x11, 0x22, 0x33, 0x9f, 0x00] : List Byte).length - 2]? = some 0x9f ∧
      ([0x11, 0x22, 0x33, 0x9f, 0x00] : List Byte)[
        ([0x11, 0x22, 0x33, 0x9f, 0x00] : List Byte).length - 1]? = some 0x00) ∧
    (ParseResponse [0x11, 0x22, 0x33, 0x9f, 0x00]).2 = some (.statusWord ⟨0x9f, 0x00⟩) ∧
    StatusWord.IsError ⟨0x9f, 0x00⟩ = false :=
  ⟨by decide,
   ((ParseResponse_IsError_asymmetry [0x11, 0x22, 0x33, 0x9f, 0x00] ⟨0x9f, 0x00⟩
      (by decide) (by decide) (by decide)).2.1).2 rfl⟩

/-! ## Further properties of the command codec -/

/-- The output of `Bytes` for a payload of any length: the length byte is there
exactly when the payload length is not a multiple of 256. -/
theorem Bytes_eq_append (c : APDU) :
    c.Bytes = [c.Cla, c.Ins, c.P1, c.P2] ++
      (if c.Data.length % 256 = 0 then [] else [toByte c.Data.length]) ++ c.Data ++ [c.Le] := by
  have hpos : (toByte c.Data.length > 0) ↔ ¬ (c.Data.length % 256 = 0) := by
    rw [gt_iff_lt, Fin.lt_def]
    simp only [toByte, Fin.val_zero]
    omega
  unfold APDU.Bytes
  by_cases h : c.Data.length % 256 = 0
  · have hn : ¬ (toByte c.Data.length > 0) := fun hp => hpos.1 hp h
    simp [h, hn]
  · have hp : toByte c.Data.length > 0 := hpos.2 h
    simp [h, hp]

theorem toByte_val (l : Byte) : toByte l.val = l := by
  apply Fin.ext
  simp only [toByte]
  omega

/-- Round trip on payloads of at most 255 bytes, in the form used by later proofs. -/
theorem FromBytes_Bytes_of_length_le (c : APDU) (h : c.Data.length ≤ 255) :
    FromBytes c.Bytes = .ok c := by
  obtain ⟨cla, ins, p1, p2, data, le⟩ := c
  cases data with
  | nil => rw [Bytes_nil, FromBytes_five]
  | cons x rest =>
    simp only [List.length_cons] at h
    rw [Bytes_cons _ _ _ _ _ _ _ h, FromBytes_six, toByte_val_of_le _ h]
    simp only [List.length_append, List.length_singleton]
    rw [if_neg (by omega), if_neg (by omega)]
    have hd : List.take (rest.length + 1) (x :: (rest ++ [le])) = x :: rest := by
      simp
    have hl : (x :: (rest ++ [le]))[rest.length + 1]? = some le := by
      simp
    rw [hd, hl]
    rfl

/-- Inversion of a successful `FromBytes`: the three shapes of an accepted frame. -/
theorem FromBytes_ok_cases (b : List Byte) (c : APDU) (h : FromBytes b = .ok c) :
    (∃ a0 a1 a2 a3, b = [a0, a1, a2, a3] ∧ c = ⟨a0, a1, a2, a3, [], 0⟩) ∨
    (∃ a0 a1 a2 a3 a4, b = [a0, a1, a2, a3, a4] ∧ c = ⟨a0, a1, a2, a3, [], a4⟩) ∨
    (∃ a0 a1 a2 a3 l x rest, b = a0 :: a1 :: a2 :: a3 :: l :: x :: rest ∧
      rest.length ≤ l.val ∧ l.val ≤ rest.length + 1 ∧
      c = ⟨a0, a1, a2, a3, (x :: rest).take l.val, ((x :: rest)[l.val]?).getD 0⟩) := by
  by_cases h4 : b.length < 4
  · rw [FromBytes_of_length_lt b h4] at h
    simp at h
  · by_cases e4 : b.length = 4
    · obtain ⟨a0, a1, a2, a3, rfl⟩ := exists_list_four b e4
      rw [FromBytes_four] at h
      simp only [Except.ok.injEq] at h
      exact Or.inl ⟨a0, a1, a2, a3, rfl, h.symm⟩
    · by_cases e5 : b.length = 5
      · obtain ⟨a0, a1, a2, a3, a4, rfl⟩ := exists_list_five b e5
        rw [FromBytes_five] at h
        simp only [Except.ok.injEq] at h
        exact Or.inr (Or.inl ⟨a0, a1, a2, a3, a4, rfl, h.symm⟩)
      · obtain ⟨a0, a1, a2, a3, l, x, rest, rfl⟩ := exists_cons_six b (by omega)
        rw [FromBytes_six] at h
        by_cases h1 : rest.length + 1 < l.val
        · rw [if_pos h1] at h
          simp at h
        · rw [if_neg h1] at h
          by_cases h2 : l.val < rest.length
          · rw [if_pos h2] at h
            simp at h
          · rw [if_neg h2] at h
            simp only [Except.ok.injEq] at h
            exact Or.inr (Or.inr ⟨a0, a1, a2, a3, l, x, rest, rfl, by omega, by omega, h.symm⟩)

/-- C17: the `Select` helper.  For every byte sequence `aid`, `Select aid` is the
command with class `0x00`, instruction `0xA4`, `P1 = 0x04`, `P2 = 0x00`, payload
`aid` and `Le = 0`. -/
theorem Select_fields (aid : List Byte) :
    (Select aid).Cla = 0x00 ∧ (Select aid).Ins = 0xa4 ∧ (Select aid).P1 = 0x04 ∧
    (Select aid).P2 = 0x00 ∧ (Select aid).Data = aid ∧ (Select aid).Le = 0 ∧
    Select aid = ⟨0x00, 0xa4, 0x04, 0x00, aid, 0x00⟩ :=
  ⟨rfl, rfl, rfl, rfl, rfl, rfl, rfl⟩

/-- C18: decoded commands keep the data-model invariant.  When `FromBytes b`
succeeds, the payload of the returned command has at most 255 bytes; it has none
when `b` has 4 or 5 bytes, and exactly `b[4]` bytes when `b` has 6 bytes or more. -/
theorem FromBytes_payload_length (b : List Byte) (c : APDU) (h : FromBytes b = .ok c) :
    c.Data.length ≤ 255 ∧
    (b.length = 4 ∨ b.length = 5 → c.Data.length = 0) ∧
    (6 ≤ b.length → ∃ lc : Byte, b[4]? = some lc ∧ c.Data.length = lc.val) := by
  rcases FromBytes_ok_cases b c h with ⟨a0, a1, a2, a3, rfl, rfl⟩ |
    ⟨a0, a1, a2, a3, a4, rfl, rfl⟩ | ⟨a0, a1, a2, a3, l, x, rest, rfl, hlo, hhi, rfl⟩
  · simp
  · simp
  · have hl := l.isLt
    have hlen : (List.take l.val (x :: rest)).length = l.val := by
      simp only [List.length_take, List.length_cons]
      omega
    refine ⟨by rw [hlen]; omega, ?_, fun _ => ⟨l, rfl, hlen⟩⟩
    intro h45
    simp only [List.length_cons] at h45
    omega

theorem FromBytes_payload_length_witness :
    FromBytes [0x11, 0x22, 0x33, 0x44, 0x02, 0x77, 0x88, 0x99] =
      .ok ⟨0x11, 0x22, 0x33, 0x44, [0x77, 0x88], 0x99⟩ ∧
    (⟨0x11, 0x22, 0x33, 0x44, [0x77, 0x88], 0x99⟩ : APDU).Data.length ≤ 255 :=
  ⟨by decide,
   (FromBytes_payload_length [0x11, 0x22, 0x33, 0x44, 0x02, 0x77, 0x88, 0x99]
      ⟨0x11, 0x22, 0x33, 0x44, [0x77, 0x88], 0x99⟩ (by decide)).1⟩

/-- Dropping the last element and putting it back. -/
theorem take_length_append_getElem? (x : Byte) (rest : List Byte) :
    (x :: rest).take rest.length ++ [((x :: rest)[rest.length]?).getD 0] = x :: rest := by
  have hlt : rest.length < (x :: rest).length := by simp
  have h1 : (x :: rest).take (rest.length + 1) = x :: rest := by
    apply List.take_of_length_le
    simp
  rw [List.getElem?_eq_getElem hlt, Option.getD_some]
  conv_rhs => rw [← h1, List.take_succ, List.getElem?_eq_getElem hlt]
  rfl

/-- C19: re-encoding is exact only on canonical frames.  When `FromBytes b`
succeeds with the command `c`: `c.Bytes = b` exactly when `b` has 5 bytes, or
`b[4] ≥ 1` and `b` has `6 + b[4]` bytes; `c.Bytes` differs from `b` exactly on the
other accepted frames (4 bytes; data without a trailing `Le` byte; 6 bytes with
`b[4] = 0`); and in every case `FromBytes c.Bytes` returns `c` again. -/
theorem Bytes_FromBytes_canonical (b : List Byte) (c : APDU) (h : FromBytes b = .ok c) :
    (c.Bytes = b ↔
      (b.length = 5 ∨ ∃ lc : Byte, b[4]? = some lc ∧ 1 ≤ lc.val ∧ b.length = 6 + lc.val)) ∧
    (c.Bytes ≠ b ↔
      (b.length = 4 ∨
        (∃ lc : Byte, b[4]? = some lc ∧ 6 ≤ b.length ∧ b.length = 5 + lc.val) ∨
        (b.length = 6 ∧ b[4]? = some 0))) ∧
    FromBytes c.Bytes = .ok c := by
  have hrt : FromBytes c.Bytes = .ok c :=
    FromBytes_Bytes_of_length_le c (by
      rcases FromBytes_ok_cases b c h with ⟨a0, a1, a2, a3, rfl, rfl⟩ |
        ⟨a0, a1, a2, a3, a4, rfl, rfl⟩ | ⟨a0, a1, a2, a3, l, x, rest, rfl, hlo, hhi, rfl⟩
      · simp
      · simp
      · have hl := l.isLt
        simp only [List.length_take, List.length_cons]
        omega)
  refine ⟨?_, ?_, hrt⟩
  all_goals
    rcases FromBytes_ok_cases b c h with ⟨a0, a1, a2, a3, rfl, rfl⟩ |
      ⟨a0, a1, a2, a3, a4, rfl, rfl⟩ | ⟨a0, a1, a2, a3, l, x, rest, rfl, hlo, hhi, rfl⟩
  · rw [Bytes_nil]
    simp
  · rw [Bytes_nil]
    simp
  · have hl := l.isLt
    simp only [List.getElem?_cons_succ, List.getElem?_cons_zero, Option.some.injEq,
      List.length_cons, exists_eq_left']
    by_cases hA : l.val = rest.length + 1
    · have hne : APDU.Bytes ⟨a0, a1, a2, a3, (x :: rest).take l.val,
          ((x :: rest)[l.val]?).getD 0⟩ ≠ a0 :: a1 :: a2 :: a3 :: l :: x :: rest := by
        intro heq
        have hlen := congrArg List.length heq
        rw [Bytes_eq_append] at hlen
        simp only [List.length_append, List.length_cons, List.length_nil, List.length_take,
          List.length_singleton] at hlen
        split at hlen <;> simp at hlen <;> omega
      constructor
      · intro heq
        exact absurd heq hne
      · intro hc
        omega
    · have hB : l.val = rest.length := by omega
      by_cases h0 : l.val = 0
      · have hne : APDU.Bytes ⟨a0, a1, a2, a3, (x :: rest).take l.val,
            ((x :: rest)[l.val]?).getD 0⟩ ≠ a0 :: a1 :: a2 :: a3 :: l :: x :: rest := by
          intro heq
          have hlen := congrArg List.length heq
          rw [Bytes_eq_append] at hlen
          simp only [List.length_append, List.length_cons, List.length_nil, List.length_take,
            List.length_singleton] at hlen
          split at hlen <;> simp at hlen <;> omega
        constructor
        · intro heq
          exact absurd heq hne
        · intro hc
          omega
      · constructor
        · intro _
          omega
        · intro _
          rw [Bytes_eq_append]
          have hlen : (List.take l.val (x :: rest)).length = l.val := by
            simp only [List.length_take, List.length_cons]
            omega
          simp only [hlen]
          rw [if_neg (by omega), toByte_val]
          rw [hB]
          simp only [List.append_assoc, take_length_append_getElem?]
          rfl
  · rw [Bytes_nil]
    simp
  · rw [Bytes_nil]
    simp
  · have hl := l.isLt
    simp only [List.getElem?_cons_succ, List.getElem?_cons_zero, Option.some.injEq,
      List.length_cons, exists_eq_left']
    by_cases hA : l.val = rest.length + 1
    · have hne : APDU.Bytes ⟨a0, a1, a2, a3, (x :: rest).take l.val,
          ((x :: rest)[l.val]?).getD 0⟩ ≠ a0 :: a1 :: a2 :: a3 :: l :: x :: rest := by
        intro heq
        have hlen := congrArg List.length heq
        rw [Bytes_eq_append] at hlen
        simp only [List.length_append, List.length_cons, List.length_nil, List.length_take,
          List.length_singleton] at hlen
        split at hlen <;> simp at hlen <;> omega
      constructor
      · intro _
        exact Or.inr (Or.inl ⟨by omega, by omega⟩)
      · intro _
        exact hne
    · have hB : l.val = rest.length := by omega
      by_cases h0 : l.val = 0
      · have hne : APDU.Bytes ⟨a0, a1, a2, a3, (x :: rest).take l.val,
            ((x :: rest)[l.val]?).getD 0⟩ ≠ a0 :: a1 :: a2 :: a3 :: l :: x :: rest := by
          intro heq
          have hlen := congrArg List.length heq
          rw [Bytes_eq_append] at hlen
          simp only [List.length_append, List.length_cons, List.length_nil, List.length_take,
            List.length_singleton] at hlen
          split at hlen <;> simp at hlen <;> omega
        constructor
        · intro _
          refine Or.inr (Or.inr ⟨by omega, ?_⟩)
          exact Fin.ext h0
        · intro _
          exact hne
      · constructor
        · intro hne
          exfalso
          apply hne
          rw [Bytes_eq_append]
          have hlen : (List.take l.val (x :: rest)).length = l.val := by
            simp only [List.length_take, List.length_cons]
            omega
          simp only [hlen]
          rw [if_neg (by omega), toByte_val]
          rw [hB]
          simp only [List.append_assoc, take_length_append_getElem?]
          rfl
        · rintro (h4 | ⟨_, h5⟩ | ⟨h6, hz⟩)
          · omega
          · omega
          · have := congrArg Fin.val hz
            simp at this
            omega

theorem Bytes_FromBytes_canonical_witness :
    (FromBytes [0x11, 0x22, 0x33, 0x44, 0x02, 0x77, 0x88] =
        .ok ⟨0x11, 0x22, 0x33, 0x44, [0x77, 0x88], 0⟩ ∧
      APDU.Bytes ⟨0x11, 0x22, 0x33, 0x44, [0x77, 0x88], 0⟩ ≠
        [0x11, 0x22, 0x33, 0x44, 0x02, 0x77, 0x88] ∧
      FromBytes (APDU.Bytes ⟨0x11, 0x22, 0x33, 0x44, [0x77, 0x88], 0⟩) =
        .ok ⟨0x11, 0x22, 0x33, 0x44, [0x77, 0x88], 0⟩) ∧
    (FromBytes [0x11, 0x22, 0x33, 0x44, 0x02, 0x77, 0x88, 0x99] =
        .ok ⟨0x11, 0x22, 0x33, 0x44, [0x77, 0x88], 0x99⟩ ∧
      APDU.Bytes ⟨0x11, 0x22, 0x33, 0x44, [0x77, 0x88], 0x99⟩ =
        [0x11, 0x22, 0x33, 0x44, 0x02, 0x77, 0x88, 0x99]) :=
  ⟨⟨by decide,
    (Bytes_FromBytes_canonical [0x11, 0x22, 0x33, 0x44, 0x02, 0x77, 0x88]
      ⟨0x11, 0x22, 0x33, 0x44, [0x77, 0x88], 0⟩ (by decide)).2.1.2
      (Or.inr (Or.inl ⟨0x02, by decide, by decide, by decide⟩)),
    (Bytes_FromBytes_canonical [0x11, 0x22, 0x33, 0x44, 0x02, 0x77, 0x88]
      ⟨0x11, 0x22, 0x33, 0x44, [0x77, 0x88], 0⟩ (by decide)).2.2⟩,
   ⟨by decide,
    (Bytes_FromBytes_canonical [0x11, 0x22, 0x33, 0x44, 0x02, 0x77, 0x88, 0x99]
      ⟨0x11, 0x22, 0x33, 0x44, [0x77, 0x88], 0x99⟩ (by decide)).1.2
      (Or.inr ⟨0x02, by decide, by decide, by decide⟩)⟩⟩

/-- C11 (as amended): length byte of a long payload.  For every command whose
payload length is not a multiple of 256, lengths above 255 included, `Bytes` is
the four header bytes, one length byte of value `len(payload) mod 256`, all the
payload bytes, and the `Le` byte. -/
theorem Bytes_length_byte_of_mod_ne_zero (c : APDU) (h : c.Data.length % 256 ≠ 0) :
    ∃ lc : Byte, lc.val = c.Data.length % 256 ∧
      c.Bytes = [c.Cla, c.Ins, c.P1, c.P2] ++ [lc] ++ c.Data ++ [c.Le] := by
  refine ⟨toByte c.Data.length, rfl, ?_⟩
  rw [Bytes_eq_append, if_neg h]

theorem Bytes_length_byte_of_mod_ne_zero_witness :
    (⟨0x00, 0xa4, 0x04, 0x00, List.replicate 257 0x11, 0x00⟩ : APDU).Data.length % 256 ≠ 0 ∧
    ∃ lc : Byte,
      lc.val = (⟨0x00, 0xa4, 0x04, 0x00, List.replicate 257 0x11, 0x00⟩ : APDU).Data.length % 256 ∧
      APDU.Bytes ⟨0x00, 0xa4, 0x04, 0x00, List.replicate 257 0x11, 0x00⟩ =
        [0x00, 0xa4, 0x04, 0x00] ++ [lc] ++ List.replicate 257 0x11 ++ [0x00] :=
  ⟨by
      simp only [List.length_replicate]
      decide,
   Bytes_length_byte_of_mod_ne_zero
    ⟨0x00, 0xa4, 0x04, 0x00, List.replicate 257 0x11, 0x00⟩ (by
      simp only [List.length_replicate]
      decide)⟩

/-- C11 fails as stated: a payload of 256 bytes is non-empty, yet `Bytes` emits no
length byte for it (the output has 261 bytes, not 262). -/
theorem Bytes_length_byte_counterexample :
    (List.replicate 256 (0x11 : Byte)) ≠ [] ∧
    APDU.Bytes ⟨0x00, 0xa4, 0x04, 0x00, List.replicate 256 0x11, 0x00⟩ =
      [0x00, 0xa4, 0x04, 0x00] ++ List.replicate 256 0x11 ++ [0x00] ∧
    (APDU.Bytes ⟨0x00, 0xa4, 0x04, 0x00, List.replicate 256 0x11, 0x00⟩).length = 261 ∧
    ¬ ∃ lc : Byte, APDU.Bytes ⟨0x00, 0xa4, 0x04, 0x00, List.replicate 256 0x11, 0x00⟩ =
      [0x00, 0xa4, 0x04, 0x00] ++ [lc] ++ List.replicate 256 0x11 ++ [0x00] := by
  have hB : APDU.Bytes ⟨0x00, 0xa4, 0x04, 0x00, List.replicate 256 0x11, 0x00⟩ =
      [0x00, 0xa4, 0x04, 0x00] ++ List.replicate 256 0x11 ++ [0x00] := by
    have hmod : (⟨0x00, 0xa4, 0x04, 0x00, List.replicate 256 0x11, 0x00⟩ : APDU).Data.length
        % 256 = 0 := by
      simp only [List.length_replicate]
    have hgen := Bytes_eq_append ⟨0x00, 0xa4, 0x04, 0x00, List.replicate 256 0x11, 0x00⟩
    rw [if_pos hmod, List.append_nil] at hgen
    exact hgen
  refine ⟨?_, hB, ?_, ?_⟩
  · intro hnil
    have hlen := congrArg List.length hnil
    rw [List.length_replicate, List.length_nil] at hlen
    omega
  · rw [hB]
    simp only [List.length_append, List.length_replicate, List.length_cons, List.length_nil]
  · rintro ⟨lc, hlc⟩
    have hlen := congrArg List.length hlc
    rw [hB] at hlen
    simp only [List.length_append, List.length_replicate, List.length_cons,
      List.length_nil] at hlen
    omega

/-- C12 (as amended): the frame of a command without payload and with `Le = 0`.
For every such command `Bytes` produces the 5-byte frame
`[class, instruction, p1, p2, 0x00]`, and decoding that frame gives the command
back; the 4-byte frame `[class, instruction, p1, p2]` decodes to the same command. -/
theorem Bytes_empty_payload_zero_Le (c : APDU) (hd : c.Data = []) (hle : c.Le = 0) :
    c.Bytes = [c.Cla, c.Ins, c.P1, c.P2, 0x00] ∧
    FromBytes c.Bytes = .ok c ∧
    FromBytes [c.Cla, c.Ins, c.P1, c.P2] = .ok c := by
  obtain ⟨cla, ins, p1, p2, data, le⟩ := c
  simp only at hd hle
  subst hd hle
  rw [Bytes_nil]
  exact ⟨rfl, FromBytes_five _ _ _ _ _, FromBytes_four _ _ _ _⟩

theorem Bytes_empty_payload_zero_Le_witness :
    ((⟨0x11, 0x22, 0x33, 0x44, [], 0⟩ : APDU).Data = [] ∧
      (⟨0x11, 0x22, 0x33, 0x44, [], 0⟩ : APDU).Le = 0) ∧
    APDU.Bytes ⟨0x11, 0x22, 0x33, 0x44, [], 0⟩ = [0x11, 0x22, 0x33, 0x44, 0x00] ∧
    FromBytes (APDU.Bytes ⟨0x11, 0x22, 0x33, 0x44, [], 0⟩) =
      .ok ⟨0x11, 0x22, 0x33, 0x44, [], 0⟩ ∧
    FromBytes [0x11, 0x22, 0x33, 0x44] = .ok ⟨0x11, 0x22, 0x33, 0x44, [], 0⟩ :=
  ⟨⟨rfl, rfl⟩, Bytes_empty_payload_zero_Le ⟨0x11, 0x22, 0x33, 0x44, [], 0⟩ rfl rfl⟩

/-- C12 fails as stated: the command `{11 22 33 44, no payload, Le = 0}` encodes to
the 5 bytes `11 22 33 44 00`, not to the 4-byte frame `11 22 33 44`. -/
theorem Bytes_minimal_frame_counterexample :
    (⟨0x11, 0x22, 0x33, 0x44, [], 0⟩ : APDU).Data = [] ∧
    (⟨0x11, 0x22, 0x33, 0x44, [], 0⟩ : APDU).Le = 0 ∧
    APDU.Bytes ⟨0x11, 0x22, 0x33, 0x44, [], 0⟩ = [0x11, 0x22, 0x33, 0x44, 0x00] ∧
    APDU.Bytes ⟨0x11, 0x22, 0x33, 0x44, [], 0⟩ ≠ [0x11, 0x22, 0x33, 0x44] := by
  decide

/-! ## Test vectors of the textual functions -/

theorem String_test : APDU.String ⟨0x11, 0x22, 0x33, 0x44, [0x88, 0x99], 0x77⟩ =
    ascii "1122334402889977" := by decide

theorem FromString_test_parse_error :
    FromString (ascii "000W") = .error (.hex (.InvalidByteError (ch 'W'))) := by decide

theorem FromString_test_success :
    FromString (ascii "11223344") = .ok ⟨0x11, 0x22, 0x33, 0x44, [], 0⟩ := by decide

theorem Error_test_unknown :
    StatusWord.Error (fun _ => none) ⟨0x11, 0x11⟩ = ascii "1111 (Unknown)" := by decide

theorem Error_test_file_not_found :
    StatusWord.Error (fun k => if k = 0x6A82 then some (ascii "File not found") else none)
      ⟨0x6a, 0x82⟩ = ascii "6A82 (File not found)" := by decide

/-! ## Facts about single characters and single bytes -/

set_option maxRecDepth 100000 in
theorem EncodeToString_singleton : ∀ v : Byte,
    hex.EncodeToString [v] = [lowerHexDigit (v.val / 16), lowerHexDigit (v.val % 16)] := by
  decide

set_option maxRecDepth 100000 in
theorem fmtX_singleton : ∀ v : Byte,
    fmtX [v] = [upperHexDigit (v.val / 16), upperHexDigit (v.val % 16)] := by
  decide

set_option maxRecDepth 100000 in
theorem fromHexChar_eq : ∀ c : Byte,
    (hex.fromHexChar c).2 = isHexDigit c ∧
    (hex.fromHexChar c).1.val = (hexDigitValue c).getD 0 ∧
    (hexDigitValue c).getD 0 < 16 := by
  decide

set_option maxRecDepth 100000 in
theorem shift_or_eq : ∀ a b : Fin 16,
    toByte ((toByte (a.val <<< 4)).val ||| b.val) = toByte (16 * a.val + b.val) := by
  decide

set_option maxRecDepth 100000 in
theorem Decode_EncodeToString_singleton : ∀ v : Byte,
    (hex.fromHexChar (lowerHexDigit (v.val / 16))).2 = true ∧
    (hex.fromHexChar (lowerHexDigit (v.val % 16))).2 = true ∧
    toByte ((toByte ((hex.fromHexChar (lowerHexDigit (v.val / 16))).1.val <<< 4)).val |||
      (hex.fromHexChar (lowerHexDigit (v.val % 16))).1.val) = v ∧
    isSpaceChar (lowerHexDigit (v.val / 16)) = false ∧
    isSpaceChar (lowerHexDigit (v.val % 16)) = false ∧
    ((ch '0' ≤ lowerHexDigit (v.val / 16) ∧ lowerHexDigit (v.val / 16) ≤ ch '9') ∨
      (ch 'a' ≤ lowerHexDigit (v.val / 16) ∧ lowerHexDigit (v.val / 16) ≤ ch 'f')) ∧
    ((ch '0' ≤ lowerHexDigit (v.val % 16) ∧ lowerHexDigit (v.val % 16) ≤ ch '9') ∨
      (ch 'a' ≤ lowerHexDigit (v.val % 16) ∧ lowerHexDigit (v.val % 16) ≤ ch 'f')) := by
  decide

/-! ## Hexadecimal rendering -/

theorem EncodeToString_cons (v : Byte) (rest : List Byte) :
    hex.EncodeToString (v :: rest) =
      lowerHexDigit (v.val / 16) :: lowerHexDigit (v.val % 16) :: hex.EncodeToString rest := by
  have h1 : hex.EncodeToString (v :: rest) = hex.EncodeToString [v] ++ hex.EncodeToString rest :=
    rfl
  rw [h1, EncodeToString_singleton]
  rfl

theorem EncodeToString_length (bs : List Byte) :
    (hex.EncodeToString bs).length = 2 * bs.length := by
  induction bs with
  | nil => rfl
  | cons v rest ih =>
    rw [EncodeToString_cons]
    simp only [List.length_cons, ih]
    omega

theorem EncodeToString_getElem? (bs : List Byte) :
    ∀ (i : Nat) (v : Byte), bs[i]? = some v →
      (hex.EncodeToString bs)[2 * i]? = some (lowerHexDigit (v.val / 16)) ∧
      (hex.EncodeToString bs)[2 * i + 1]? = some (lowerHexDigit (v.val % 16)) := by
  induction bs with
  | nil =>
    intro i v h
    simp at h
  | cons w rest ih =>
    intro i v h
    rw [EncodeToString_cons]
    cases i with
    | zero =>
      simp only [List.getElem?_cons_zero, Option.some.injEq] at h
      subst h
      exact ⟨by simp, by simp⟩
    | succ j =>
      simp only [List.getElem?_cons_succ] at h
      have e1 : 2 * (j + 1) = 2 * j + 1 + 1 := by omega
      rw [e1]
      simp only [List.getElem?_cons_succ]
      exact ih j v h

theorem EncodeToString_mem (bs : List Byte) :
    ∀ x ∈ hex.EncodeToString bs,
      isSpaceChar x = false ∧
      ((ch '0' ≤ x ∧ x ≤ ch '9') ∨ (ch 'a' ≤ x ∧ x ≤ ch 'f')) := by
  induction bs with
  | nil =>
    intro x hx
    simp [hex.EncodeToString] at hx
  | cons v rest ih =>
    intro x hx
    rw [EncodeToString_cons] at hx
    have hv := Decode_EncodeToString_singleton v
    rcases List.mem_cons.1 hx with rfl | hx
    · exact ⟨hv.2.2.2.1, hv.2.2.2.2.2.1⟩
    · rcases List.mem_cons.1 hx with rfl | hx
      · exact ⟨hv.2.2.2.2.1, hv.2.2.2.2.2.2⟩
      · exact ih x hx

/-- C15: hex formatting.  For every command `c`, `c.String` is the hexadecimal
rendering of `c.Bytes`: two characters per encoded byte and nothing else, the
digit of the high nibble first, and only the characters `0`-`9` and `a`-`f`. -/
theorem String_hex_rendering (c : APDU) :
    c.String.length = 2 * c.Bytes.length ∧
    (∀ (i : Nat) (v : Byte), c.Bytes[i]? = some v →
      c.String[2 * i]? = some (lowerHexDigit (v.val / 16)) ∧
      c.String[2 * i + 1]? = some (lowerHexDigit (v.val % 16))) ∧
    (∀ x ∈ c.String, (ch '0' ≤ x ∧ x ≤ ch '9') ∨ (ch 'a' ≤ x ∧ x ≤ ch 'f')) :=
  ⟨EncodeToString_length c.Bytes, EncodeToString_getElem? c.Bytes,
    fun x hx => (EncodeToString_mem c.Bytes x hx).2⟩

theorem status_key_eq (hi lo : Byte) :
    ((hi.val <<< 8) % 65536) ||| lo.val = hi.val * 256 + lo.val := by
  have h1 := hi.isLt
  have h2 : lo.val < 2 ^ 8 := lo.isLt
  rw [Nat.shiftLeft_eq, Nat.mod_eq_of_lt (by omega)]
  have h3 := Nat.mul_add_lt_is_or h2 hi.val
  rw [show hi.val * 2 ^ 8 = 2 ^ 8 * hi.val by omega, ← h3]
  omega

/-- C16: status description rendering.  For every status word `(hi, lo)` and
every status table, `Error` is the four upper-case hexadecimal digits of `hi`
then `lo`, a space, and in parentheses the description the table has for the key
`hi * 256 + lo`, or `Unknown` when the table has none; so `(0x11, 0x11)` renders
as `1111 (Unknown)` when `0x1111` is not in the table. -/
theorem Error_rendering (statusWords : Nat → Option (List Byte)) (sw : StatusWord) :
    sw.Error statusWords =
      [upperHexDigit (sw.sw0.val / 16), upperHexDigit (sw.sw0.val % 16),
        upperHexDigit (sw.sw1.val / 16), upperHexDigit (sw.sw1.val % 16)] ++
      ascii " (" ++
      (statusWords (sw.sw0.val * 256 + sw.sw1.val)).getD (ascii "Unknown") ++
      ascii ")" ∧
    (statusWords 0x1111 = none →
      StatusWord.Error statusWords ⟨0x11, 0x11⟩ = ascii "1111 (Unknown)") := by
  have hgen : ∀ sw : StatusWord, sw.Error statusWords =
      [upperHexDigit (sw.sw0.val / 16), upperHexDigit (sw.sw0.val % 16),
        upperHexDigit (sw.sw1.val / 16), upperHexDigit (sw.sw1.val % 16)] ++
      ascii " (" ++
      (statusWords (sw.sw0.val * 256 + sw.sw1.val)).getD (ascii "Unknown") ++
      ascii ")" := by
    intro sw
    have hx : fmtX [sw.sw0, sw.sw1] =
        [upperHexDigit (sw.sw0.val / 16), upperHexDigit (sw.sw0.val % 16),
          upperHexDigit (sw.sw1.val / 16), upperHexDigit (sw.sw1.val % 16)] := by
      have h1 : fmtX [sw.sw0, sw.sw1] = fmtX [sw.sw0] ++ fmtX [sw.sw1] := rfl
      rw [h1, fmtX_singleton, fmtX_singleton]
      rfl
    unfold StatusWord.Error
    simp only [status_key_eq, hx]
    cases statusWords (sw.sw0.val * 256 + sw.sw1.val) <;> rfl
  refine ⟨hgen sw, ?_⟩
  intro hnone
  rw [hgen]
  have hk : (⟨0x11, 0x11⟩ : StatusWord).sw0.val * 256 + (⟨0x11, 0x11⟩ : StatusWord).sw1.val
      = 0x1111 := by decide
  rw [hk, hnone]
  decide

theorem Error_rendering_witness :
    (fun k => if k = 0x6A82 then some (ascii "File not found") else none : Nat →
        Option (List Byte)) 0x1111 = none ∧
    StatusWord.Error (fun k => if k = 0x6A82 then some (ascii "File not found") else none)
      ⟨0x11, 0x11⟩ = ascii "1111 (Unknown)" :=
  ⟨by decide,
   (Error_rendering (fun k => if k = 0x6A82 then some (ascii "File not found") else none)
      ⟨0x11, 0x11⟩).2 (by decide)⟩

/-! ## Parsing from a hexadecimal string -/

set_option maxRecDepth 100000 in
theorem spaceReplacer_lookup : ∀ c : Byte,
    spaceReplacer.lookup c = if isSpaceChar c = true then some [] else none := by
  decide

set_option maxRecDepth 100000 in
/-- The specification's hexadecimal digits are the characters `0`-`9`, `a`-`f`
and `A`-`F`. -/
theorem isHexDigit_iff : ∀ c : Byte,
    isHexDigit c = true ↔
      ((ch '0' ≤ c ∧ c ≤ ch '9') ∨ (ch 'a' ≤ c ∧ c ≤ ch 'f') ∨ (ch 'A' ≤ c ∧ c ≤ ch 'F')) := by
  decide

theorem Replace_spaceReplacer (s : List Byte) :
    Replace spaceReplacer s = removeSpaces s := by
  induction s with
  | nil => rfl
  | cons c rest ih =>
    unfold Replace
    rw [spaceReplacer_lookup]
    by_cases hc : isSpaceChar c = true
    · rw [if_pos hc]
      simp only [List.nil_append, ih, removeSpaces, List.filter_cons, hc, Bool.not_true]
      rfl
    · rw [if_neg hc]
      have hf : isSpaceChar c = false := by
        cases h : isSpaceChar c
        · rfl
        · exact absurd h hc
      simp only [ih, removeSpaces, List.filter_cons, hf, Bool.not_false, if_true]

theorem removeSpaces_idem (s : List Byte) : removeSpaces (removeSpaces s) = removeSpaces s := by
  simp only [removeSpaces, List.filter_filter, Bool.and_self]

theorem removeSpaces_insert (pre post : List Byte) (c : Byte) (hc : isSpaceChar c = true) :
    removeSpaces (pre ++ c :: post) = removeSpaces (pre ++ post) := by
  simp only [removeSpaces, List.filter_append, List.filter_cons, hc, Bool.not_true]
  rfl

theorem Decode_cons_cons (dst : List Byte) (p q : Byte) (rest : List Byte) :
    hex.Decode dst (p :: q :: rest) =
      if (hex.fromHexChar p).2 = false then (dst, some (.InvalidByteError p))
      else if (hex.fromHexChar q).2 = false then (dst, some (.InvalidByteError q))
      else hex.Decode
        (dst ++ [toByte ((toByte ((hex.fromHexChar p).1.val <<< 4)).val |||
          (hex.fromHexChar q).1.val)]) rest := by
  rw [hex.Decode]

theorem fromHexChar_combine (p q : Byte) :
    toByte ((toByte ((hex.fromHexChar p).1.val <<< 4)).val ||| (hex.fromHexChar q).1.val) =
      toByte (16 * (hexDigitValue p).getD 0 + (hexDigitValue q).getD 0) := by
  obtain ⟨_, hp1, hp2⟩ := fromHexChar_eq p
  obtain ⟨_, hq1, hq2⟩ := fromHexChar_eq q
  have h := shift_or_eq ⟨(hexDigitValue p).getD 0, hp2⟩ ⟨(hexDigitValue q).getD 0, hq2⟩
  rw [hp1, hq1]
  exact h

/-- The decoding loop against the specification: it ends without error exactly
on strings of even length made of hexadecimal digits, and then it has appended
the bytes the string denotes. -/
theorem Decode_spec : ∀ (s dst : List Byte),
    ((hex.Decode dst s).2 = none ↔ (s.length % 2 = 0 ∧ ∀ c ∈ s, isHexDigit c = true)) ∧
    ((hex.Decode dst s).2 = none → (hex.Decode dst s).1 = dst ++ hexBytes s)
  | [], dst => by
    simp [hex.Decode, hexBytes]
  | [p], dst => by
    unfold hex.Decode
    by_cases hp : (hex.fromHexChar p).2 = false
    · simp [hp]
    · simp [hp]
  | p :: q :: rest, dst => by
    have ih := Decode_spec rest
      (dst ++ [toByte ((toByte ((hex.fromHexChar p).1.val <<< 4)).val |||
        (hex.fromHexChar q).1.val)])
    rw [Decode_cons_cons]
    have hp := (fromHexChar_eq p).1
    have hq := (fromHexChar_eq q).1
    by_cases h1 : (hex.fromHexChar p).2 = false
    · rw [if_pos h1]
      rw [h1] at hp
      constructor
      · constructor
        · intro h
          simp at h
        · rintro ⟨_, hall⟩
          have := hall p (List.mem_cons_self _ _)
          rw [← hp] at this
          simp at this
      · intro h
        simp at h
    · rw [if_neg h1]
      by_cases h2 : (hex.fromHexChar q).2 = false
      · rw [if_pos h2]
        rw [h2] at hq
        constructor
        · constructor
          · intro h
            simp at h
          · rintro ⟨_, hall⟩
            have := hall q (List.mem_cons_of_mem _ (List.mem_cons_self _ _))
            rw [← hq] at this
            simp at this
        · intro h
          simp at h
      · rw [if_neg h2]
        have hp1 : isHexDigit p = true := by
          rw [← hp]
          simpa using h1
        have hq1 : isHexDigit q = true := by
          rw [← hq]
          simpa using h2
        constructor
        · rw [ih.1]
          constructor
          · rintro ⟨hlen, hall⟩
            refine ⟨by simp only [List.length_cons]; omega, ?_⟩
            intro c hc
            rcases List.mem_cons.1 hc with rfl | hc
            · exact hp1
            · rcases List.mem_cons.1 hc with rfl | hc
              · exact hq1
              · exact hall c hc
          · rintro ⟨hlen, hall⟩
            refine ⟨by simp only [List.length_cons] at hlen; omega, ?_⟩
            intro c hc
            exact hall c (List.mem_cons_of_mem _ (List.mem_cons_of_mem _ hc))
        · intro h
          rw [ih.2 h, fromHexChar_combine]
          simp [hexBytes]

theorem Decode_EncodeToString (bs : List Byte) :
    ∀ dst : List Byte, hex.Decode dst (hex.EncodeToString bs) = (dst ++ bs, none) := by
  induction bs with
  | nil =>
    intro dst
    simp [hex.EncodeToString, hex.Decode]
  | cons v rest ih =>
    intro dst
    obtain ⟨h1, h2, h3, _⟩ := Decode_EncodeToString_singleton v
    rw [EncodeToString_cons, Decode_cons_cons, if_neg (by rw [h1]; simp),
      if_neg (by rw [h2]; simp), h3, ih]
    simp

theorem removeSpaces_EncodeToString (bs : List Byte) :
    removeSpaces (hex.EncodeToString bs) = hex.EncodeToString bs := by
  unfold removeSpaces
  rw [List.filter_eq_self]
  intro x hx
  rw [(EncodeToString_mem bs x hx).1]
  rfl

theorem FromString_eq (s : List Byte) :
    FromString s =
      match hex.Decode [] (removeSpaces s) with
      | (_, some err) => .error (.hex err)
      | (b, none) => (FromBytes b).mapError .apdu := by
  unfold FromString hex.DecodeString
  rw [Replace_spaceReplacer]

/-- C13: whitespace-tolerant hex parsing.  For every string `s`, `FromString s` is
the result (the same command or the same failure) of `FromString` on `s` with
every space, tab, newline and carriage return removed; so two strings that differ
only by such characters give the same result, inserting one of them anywhere
changes nothing, and `1122 3344` parses as `11223344` does. -/
theorem FromString_removeSpaces (s : List Byte) :
    FromString s = FromString (removeSpaces s) ∧
    (∀ t : List Byte, removeSpaces t = removeSpaces s → FromString t = FromString s) ∧
    (∀ (pre post : List Byte) (c : Byte),
      (c = ch ' ' ∨ c = ch '\t' ∨ c = ch '\n' ∨ c = ch '\r') →
      s = pre ++ post → FromString (pre ++ c :: post) = FromString s) ∧
    FromString (ascii "1122 3344") = FromString (ascii "11223344") := by
  have hsame : ∀ t u : List Byte, removeSpaces t = removeSpaces u →
      FromString t = FromString u := by
    intro t u h
    rw [FromString_eq t, FromString_eq u, h]
  refine ⟨hsame _ _ (removeSpaces_idem s).symm, fun t ht => hsame _ _ ht, ?_, ?_⟩
  · intro pre post c hc hs
    subst hs
    apply hsame
    apply removeSpaces_insert
    rcases hc with rfl | rfl | rfl | rfl <;> decide
  · exact hsame _ _ (by decide)

theorem FromString_removeSpaces_witness :
    (ch ' ' = ch ' ' ∨ ch ' ' = ch '\t' ∨ ch ' ' = ch '\n' ∨ ch ' ' = ch '\r') ∧
    ascii "11223344" = ascii "1122" ++ ascii "3344" ∧
    FromString (ascii "1122" ++ ch ' ' :: ascii "3344") = FromString (ascii "11223344") :=
  ⟨Or.inl rfl, by decide,
   (FromString_removeSpaces (ascii "11223344")).2.2.1 (ascii "1122") (ascii "3344") (ch ' ')
     (Or.inl rfl) (by decide)⟩

/-- C14: hex parse failure.  With `s'` the string `s` without its spaces, tabs,
newlines and carriage returns, `FromString s` fails with an error of the
hexadecimal decoder (not with an error of `FromBytes`) exactly when `s'` has odd
length or contains a character that is not a hexadecimal digit; otherwise
`FromString s` is `FromBytes` applied to the bytes that `s'` denotes, two digits
per byte, high nibble first. -/
theorem FromString_hex_error_iff (s : List Byte) :
    ((∃ e : HexError, FromString s = .error (.hex e)) ↔
      ((removeSpaces s).length % 2 = 1 ∨ ∃ c ∈ removeSpaces s, isHexDigit c = false)) ∧
    (¬ ((removeSpaces s).length % 2 = 1 ∨ ∃ c ∈ removeSpaces s, isHexDigit c = false) →
      FromString s = (FromBytes (hexBytes (removeSpaces s))).mapError .apdu) := by
  have hspec := Decode_spec (removeSpaces s) []
  have hcond : ((removeSpaces s).length % 2 = 1 ∨ ∃ c ∈ removeSpaces s, isHexDigit c = false) ↔
      ¬ ((removeSpaces s).length % 2 = 0 ∧ ∀ c ∈ removeSpaces s, isHexDigit c = true) := by
    constructor
    · rintro (hodd | ⟨c, hc, hbad⟩) ⟨heven, hall⟩
      · omega
      · rw [hall c hc] at hbad
        simp at hbad
    · intro hn
      by_cases hodd : (removeSpaces s).length % 2 = 1
      · exact Or.inl hodd
      · right
        by_contra hex
        apply hn
        refine ⟨by omega, ?_⟩
        intro c hc
        cases hd : isHexDigit c
        · exact absurd ⟨c, hc, hd⟩ hex
        · rfl
  rw [hcond, ← hspec.1, FromString_eq]
  cases hdec : hex.Decode [] (removeSpaces s) with
  | mk out err =>
    rw [hdec] at hspec
    cases err with
    | none =>
      simp only [not_true_eq_false, iff_false, not_exists, not_false_eq_true,
        true_implies]
      refine ⟨?_, ?_⟩
      · intro e he
        cases hfb : FromBytes out with
        | ok a =>
          rw [hfb] at he
          simp [Except.mapError] at he
        | error e2 =>
          rw [hfb] at he
          simp [Except.mapError] at he
      · have hout := hspec.2 rfl
        simp only [List.nil_append] at hout
        rw [← hout]
    | some e =>
      simp only [reduceCtorEq, not_false_eq_true, iff_true, not_true_eq_false, false_implies,
        and_true]
      exact ⟨e, rfl⟩

/-- C20: textual round trip.  For every command whose payload has at most 255
bytes, `FromString c.String` succeeds and gives the command back, field by
field. -/
theorem FromString_String_roundtrip (c : APDU) (h : c.Data.length ≤ 255) :
    FromString c.String = .ok c := by
  rw [FromString_eq]
  unfold APDU.String
  rw [removeSpaces_EncodeToString, Decode_EncodeToString]
  simp only [List.nil_append]
  rw [FromBytes_Bytes_of_length_le c h]
  rfl

theorem FromString_String_roundtrip_witness :
    (⟨0x11, 0x22, 0x33, 0x44, [0x88, 0x99], 0x77⟩ : APDU).Data.length ≤ 255 ∧
    APDU.String ⟨0x11, 0x22, 0x33, 0x44, [0x88, 0x99], 0x77⟩ = ascii "1122334402889977" ∧
    FromString (APDU.String ⟨0x11, 0x22, 0x33, 0x44, [0x88, 0x99], 0x77⟩) =
      .ok ⟨0x11, 0x22, 0x33, 0x44, [0x88, 0x99], 0x77⟩ :=
  ⟨by decide, by decide, FromString_String_roundtrip _ (by decide)⟩

end Apdu
